import Mathlib

/-!
Verification of the memory versioning and filtered-retrieval subsystem of
the BrainMCP repository (`version_manager.go`, `search_filters.go`, and the
type declarations shared with them).

Shallow embedding conventions:
* Go `time.Time` is modelled as `Nat`; the Go zero time (`IsZero`) is `0`;
  `Before`/`After` are `<`/`>`.  Every call of `timeNow()` inside one
  operation is modelled as a single `now : Nat` argument.
* Go maps that a reader observes key-by-key (`map[string]*MemoryWithHistory`
  and the BadgerDB key space) are modelled as association lists
  `List (String × MemoryWithHistory)`; a list value doubles as one concrete
  iteration order of the map, because Go map iteration order (and hence the
  order of `for ... range`) is not fixed by the map's contents.
* JSON marshal/unmarshal performed by the storage layer round-trips a record
  unchanged, so the embedding stores record values directly.
* Go `strings.EqualFold` is modelled as equality of lower-cased strings.
* Go `len(s)` on a string is the UTF-8 byte count, `String.utf8ByteSize`.
* The `float32` field `Similarity` only ever receives the sentinel `1.0`
  here; it is modelled as the `Nat` sentinel `1`.
* Errors (`error` values built with `fmt.Errorf`) are modelled as the
  formatted message strings; `%q` on an identifier is modelled as
  surrounding double quotes (no escaping is exercised by the claims).
-/

namespace BrainMCP

abbrev Time := Nat

/-- `MemoryVersion` from the repository's shared type declarations. -/
structure MemoryVersion where
  VersionNumber : Nat
  Content : String
  CreatedAt : Time
  CreatedBy : String
  ChangeNote : String
deriving Repr, DecidableEq

/-- `MemoryWithHistory` from the repository's shared type declarations.
`Metadata` (`map[string]string`) is an association list. -/
structure MemoryWithHistory where
  ID : String
  CurrentVersion : Nat
  Versions : List MemoryVersion
  Context : String
  Tags : List String
  CreatedAt : Time
  UpdatedAt : Time
  Metadata : List (String × String)
deriving Repr, DecidableEq

/-- `Context` from `types.go`. -/
structure Context where
  ID : String
  Name : String
  Description : String
  CreatedAt : Time
  UpdatedAt : Time
  MemoryCount : Nat
  Tags : List String
deriving Repr, DecidableEq

/-- `Tag` from `types.go`. -/
structure Tag where
  Name : String
  Description : String
  Color : String
  MemoryCount : Nat
deriving Repr, DecidableEq

/-- `ExportData` from the shared type declarations.  The `Contexts`/`Tags`
maps are association lists. -/
structure ExportData where
  ExportedAt : Time
  ExportedBy : String
  Memories : List MemoryWithHistory
  Contexts : List (String × Context)
  TagTable : List (String × Tag)
  Version : String
deriving Repr, DecidableEq

/-- `BatchOperationResult` from the shared type declarations. -/
structure BatchOperationResult where
  OperationType : String
  Total : Nat
  Successful : Nat
  Failed : Nat
  Errors : List String
  OperationID : String := ""
deriving Repr, DecidableEq

/-- `SearchFilter` from the shared type declarations.  `MaxResults` is a Go
`int`, hence `Int`. -/
structure SearchFilter where
  Query : String := ""
  ContextID : String := ""
  Tags : List String := []
  StartDate : Time := 0
  EndDate : Time := 0
  CreatedBy : String := ""
  MaxResults : Int := 0
  TagFilterMode : String := ""
deriving Repr, DecidableEq

/-- `SearchResult` from the shared type declarations.  `Similarity` is the
constant sentinel, modelled as `Nat`. -/
structure SearchResult where
  ID : String
  Content : String
  Similarity : Nat
  Context : String
  Tags : List String
  CurrentVersion : Nat
  CreatedAt : Time
  UpdatedAt : Time
  Metadata : List (String × String)
deriving Repr, DecidableEq

/-- The version store: the `id -> MemoryWithHistory` mapping owned by
`MemoryVersionManager`, as an association list (also fixing one iteration
order). -/
abbrev Store := List (String × MemoryWithHistory)

/-- Keys of a store. -/
def keys (s : Store) : List String := s.map (·.1)

/-- Point lookup, the semantics of `m.histories[memoryID]` /
`txn.Get([]byte(memoryID))`. -/
def lookupMem (s : Store) (id : String) : Option MemoryWithHistory :=
  (s.find? (fun e => e.1 == id)).map (·.2)

/-- Insert-or-overwrite, the semantics of `m.histories[id] = h` /
`txn.Set([]byte(id), data)`. -/
def setMem (s : Store) (id : String) (r : MemoryWithHistory) : Store :=
  if s.any (fun e => e.1 == id) then
    s.map (fun e => if e.1 == id then (id, r) else e)
  else s ++ [(id, r)]

/-- The record `AddVersion` starts from: the stored history if the id is
seen, otherwise the fresh record literal from the source. -/
def fetchOrNew (s : Store) (memoryID ctx : String) (tags : List String)
    (now : Time) : MemoryWithHistory :=
  match lookupMem s memoryID with
  | some h => h
  | none =>
    { ID := memoryID, CurrentVersion := 0, Versions := [], Context := ctx,
      Tags := tags, CreatedAt := now, UpdatedAt := now, Metadata := [] }

/-- `MemoryVersionManager.AddVersion` (identical logic in the BadgerDB and
in-memory variants of `version_manager.go`). -/
def AddVersion (s : Store) (memoryID content clientID changeNote ctx : String)
    (tags : List String) (now : Time) : Store :=
  let history := fetchOrNew s memoryID ctx tags now
  let newVersion : MemoryVersion :=
    { VersionNumber := history.Versions.length + 1, Content := content,
      CreatedAt := now, CreatedBy := clientID, ChangeNote := changeNote }
  setMem s memoryID
    { history with
      Versions := history.Versions ++ [newVersion],
      CurrentVersion := newVersion.VersionNumber,
      UpdatedAt := now, Context := ctx, Tags := tags }

/-- The message of `fmt.Errorf("memory %q not found", memoryID)`. -/
def notFoundMsg (id : String) : String :=
  "memory \"" ++ id ++ "\" not found"

/-- `MemoryVersionManager.DeleteMemoryHistory` (in-memory variant; the
BadgerDB variant maps a key-not-found outcome of `txn.Delete` to the same
error). -/
def DeleteMemoryHistory (s : Store) (memoryID : String) :
    Except String Store :=
  if s.any (fun e => e.1 == memoryID) then
    Except.ok (s.filter (fun e => !(e.1 == memoryID)))
  else Except.error (notFoundMsg memoryID)

/-- `MemoryVersionManager.GetVersion`. -/
def GetVersion (s : Store) (memoryID : String) (versionNumber : Int) :
    Except String MemoryVersion :=
  match lookupMem s memoryID with
  | none => Except.error (notFoundMsg memoryID)
  | some history =>
    if versionNumber < 1 ∨ versionNumber > (history.Versions.length : Int) then
      Except.error ("version " ++ toString versionNumber ++
        " not found for memory \"" ++ memoryID ++ "\"")
    else
      match history.Versions.get? (versionNumber.toNat - 1) with
      | some v => Except.ok v
      | none => Except.error (notFoundMsg memoryID)

/-- `MemoryVersionManager.GetHistory`. -/
def GetHistory (s : Store) (memoryID : String) :
    Except String MemoryWithHistory :=
  match lookupMem s memoryID with
  | some h => Except.ok h
  | none => Except.error (notFoundMsg memoryID)

/-- The `includeVersions=false` compaction inside `ExportMemories`: history
truncated to its last element when non-empty. -/
def truncateToLatest (h : MemoryWithHistory) : MemoryWithHistory :=
  match h.Versions.getLast? with
  | some v => { h with Versions := [v] }
  | none => h

/-- `MemoryVersionManager.ExportMemories` (BadgerDB variant): iterate the
store, keep the keys selected by `memoryIDs` (all keys when the list is
empty), compact histories unless `includeVersions`. -/
def ExportMemories (s : Store) (memoryIDs : List String)
    (includeVersions : Bool) (now : Time) : ExportData :=
  { ExportedAt := now, ExportedBy := "system",
    Memories :=
      (s.filter (fun e => memoryIDs.isEmpty || memoryIDs.contains e.1)).map
        (fun e => if includeVersions then e.2 else truncateToLatest e.2),
    Contexts := [], TagTable := [], Version := "1.0" }

/-- `MemoryVersionManager.ImportMemories` (BadgerDB variant): store every
record of the export verbatim under its own `ID`, overwriting. -/
def ImportMemories (s : Store) (ex : ExportData) : Store :=
  ex.Memories.foldl (fun acc m => setMem acc m.ID m) s

/-- One item of the anonymous struct slice taken by `BatchCreateMemories`. -/
structure BatchCreateItem where
  ID : String
  Content : String
  Context : String
  Tags : List String
  ClientID : String
deriving Repr, DecidableEq

/-- `MemoryVersionManager.BatchCreateMemories`: `AddVersion` per item with
the fixed change note "Batch import".  In the embedding `AddVersion` never
fails, so every item is counted successful, as in the in-memory variant. -/
def BatchCreateMemories (s : Store) (memories : List BatchCreateItem)
    (now : Time) : Store × BatchOperationResult :=
  memories.foldl
    (fun acc mem =>
      (AddVersion acc.1 mem.ID mem.Content mem.ClientID "Batch import"
        mem.Context mem.Tags now,
       { acc.2 with Successful := acc.2.Successful + 1 }))
    (s, { OperationType := "batch_create", Total := memories.length,
          Successful := 0, Failed := 0, Errors := [] })

/-- The message of `fmt.Sprintf("Failed to delete %q: %v", id, err)`. -/
def failedDeleteMsg (id err : String) : String :=
  "Failed to delete \"" ++ id ++ "\": " ++ err

/-- `MemoryVersionManager.BatchDeleteMemories`: `DeleteMemoryHistory` per
id, tallying successes and failures, never aborting the batch. -/
def BatchDeleteMemories (s : Store) (memoryIDs : List String) :
    Store × BatchOperationResult :=
  memoryIDs.foldl
    (fun acc id =>
      match DeleteMemoryHistory acc.1 id with
      | Except.ok s' =>
        (s', { acc.2 with Successful := acc.2.Successful + 1 })
      | Except.error e =>
        (acc.1,
         { acc.2 with
           Failed := acc.2.Failed + 1
           Errors := acc.2.Errors ++ [failedDeleteMsg id e] }))
    (s, { OperationType := "batch_delete", Total := memoryIDs.length,
          Successful := 0, Failed := 0, Errors := [] })

/-- The tag-union loop shared by both `BatchAddTags` variants: append each
tag not already present under exact string equality (`==`). -/
def addTagsDedup (existing toAdd : List String) : List String :=
  toAdd.foldl (fun acc tag => if acc.contains tag then acc else acc ++ [tag])
    existing

/-- The message of `fmt.Sprintf("Memory %q not found", id)`. -/
def memoryNotFoundMsg (id : String) : String :=
  "Memory \"" ++ id ++ "\" not found"

/-- `MemoryVersionManager.BatchAddTags`: per id, union the given tags into
the record's tags (exact-match dedup) and bump `UpdatedAt`; a missing id is
a per-item failure. -/
def BatchAddTags (s : Store) (memoryIDs tags : List String) (now : Time) :
    Store × BatchOperationResult :=
  memoryIDs.foldl
    (fun acc id =>
      match lookupMem acc.1 id with
      | some history =>
        (setMem acc.1 id
          { history with
            Tags := addTagsDedup history.Tags tags
            UpdatedAt := now },
         { acc.2 with Successful := acc.2.Successful + 1 })
      | none =>
        (acc.1,
         { acc.2 with
           Failed := acc.2.Failed + 1
           Errors := acc.2.Errors ++ [memoryNotFoundMsg id] }))
    (s, { OperationType := "batch_add_tags", Total := memoryIDs.length,
          Successful := 0, Failed := 0, Errors := [] })

/-- `MemoryVersionManager.BatchRemoveTags`: per id, keep only the tags not
listed for removal (exact match) and bump `UpdatedAt`. -/
def BatchRemoveTags (s : Store) (memoryIDs tags : List String) (now : Time) :
    Store × BatchOperationResult :=
  memoryIDs.foldl
    (fun acc id =>
      match lookupMem acc.1 id with
      | some history =>
        (setMem acc.1 id
          { history with
            Tags := history.Tags.filter (fun t => !(tags.contains t)),
            UpdatedAt := now },
         { acc.2 with Successful := acc.2.Successful + 1 })
      | none =>
        (acc.1,
         { acc.2 with
           Failed := acc.2.Failed + 1
           Errors := acc.2.Errors ++ [memoryNotFoundMsg id] }))
    (s, { OperationType := "batch_remove_tags", Total := memoryIDs.length,
          Successful := 0, Failed := 0, Errors := [] })

/-- `strings.EqualFold`, modelled as lower-cased equality. -/
def eqFold (a b : String) : Bool :=
  a.data.map Char.toLower == b.data.map Char.toLower

/-- The tag predicate of `FilterMemories` (step inside the scan loop):
empty filter tags pass; mode "all" demands every filter tag case-folded
among the record tags; every other mode demands at least one. -/
def matchesTagFilter (f : SearchFilter) (h : MemoryWithHistory) : Bool :=
  if f.Tags.isEmpty then true
  else if f.TagFilterMode == "all" then
    f.Tags.all (fun ft => h.Tags.any (fun mt => eqFold mt ft))
  else
    f.Tags.any (fun ft => h.Tags.any (fun mt => eqFold mt ft))

/-- The full predicate chain of `FilterMemories` over one record: context,
date range, first-version author, then tags (a record with no versions
passes the author step vacuously, mirroring the source's
`len(history.Versions) > 0` guard). -/
def passesFilter (f : SearchFilter) (h : MemoryWithHistory) : Bool :=
  (f.ContextID == "" || h.Context == f.ContextID) &&
  (f.StartDate == 0 || !(decide (h.CreatedAt < f.StartDate))) &&
  (f.EndDate == 0 || !(decide (h.UpdatedAt > f.EndDate))) &&
  (f.CreatedBy == "" || h.Versions.isEmpty ||
    ((h.Versions.head?.map (·.CreatedBy)).getD "") == f.CreatedBy) &&
  matchesTagFilter f h

/-- Projection of a surviving record into a `SearchResult`, using the
latest version's content and the sentinel similarity. -/
def toSearchResult (id : String) (h : MemoryWithHistory) (v : MemoryVersion) :
    SearchResult :=
  { ID := id, Content := v.Content, Similarity := 1, Context := h.Context,
    Tags := h.Tags, CurrentVersion := h.CurrentVersion,
    CreatedAt := h.CreatedAt, UpdatedAt := h.UpdatedAt,
    Metadata := h.Metadata }

/-- The body of the scan loop: a record yields a result exactly when it
passes every predicate and has at least one version. -/
def resultOf (f : SearchFilter) (e : String × MemoryWithHistory) :
    Option SearchResult :=
  if passesFilter f e.2 then
    match e.2.Versions.getLast? with
    | some v => some (toSearchResult e.1 e.2 v)
    | none => none
  else none

/-- The accumulated result sequence of `SearchFilterEngine.FilterMemories`
before the max-results cut, for one iteration order of the store map. -/
def FilterMemoriesAll (entries : Store) (f : SearchFilter) :
    List SearchResult :=
  entries.filterMap (resultOf f)

/-- `SearchFilterEngine.FilterMemories`: scan (in the given map iteration
order), then truncate to `MaxResults` when positive and exceeded. -/
def FilterMemories (entries : Store) (f : SearchFilter) : List SearchResult :=
  let results := FilterMemoriesAll entries f
  if 0 < f.MaxResults ∧ f.MaxResults < (results.length : Int) then
    results.take f.MaxResults.toNat
  else results

/-- `SearchFilterEngine.SearchByContext`. -/
def SearchByContext (entries : Store) (contextID : String)
    (maxResults : Int) : List SearchResult :=
  FilterMemories entries { ContextID := contextID, MaxResults := maxResults }

/-- The `map[string]interface{}` returned by `GetContextStats`, as a
record; `unique_tags` keeps the deduplicated tags in first-seen order (one
representative of the Go map's key set). -/
structure ContextStats where
  ContextID : String
  MemoryCount : Nat
  UniqueTags : List String
  OldestMemory : Option Time
  NewestMemory : Option Time
  TotalCharacters : Nat
deriving Repr, DecidableEq

/-- `SearchFilterEngine.GetContextStats`: run the by-context query capped
at 10000, then fold tags, min/max times (with the Go zero time as the
"unset" sentinel) and content byte lengths. -/
def GetContextStats (entries : Store) (contextID : String) : ContextStats :=
  let memories := SearchByContext entries contextID 10000
  let oldest := memories.foldl
    (fun acc m => if acc = 0 ∨ m.CreatedAt < acc then m.CreatedAt else acc) 0
  let newest := memories.foldl
    (fun acc m => if acc = 0 ∨ m.UpdatedAt > acc then m.UpdatedAt else acc) 0
  { ContextID := contextID,
    MemoryCount := memories.length,
    UniqueTags := memories.foldl (fun acc m => addTagsDedup acc m.Tags) [],
    OldestMemory := if oldest = 0 then none else some oldest,
    NewestMemory := if newest = 0 then none else some newest,
    TotalCharacters :=
      memories.foldl (fun acc m => acc + m.Content.utf8ByteSize) 0 }

/-! ### The `current_version == len(versions)` invariant -/

/-- The spec's record invariant, over every stored record. -/
def invariantCV (s : Store) : Prop :=
  ∀ e ∈ s, e.2.CurrentVersion = e.2.Versions.length

instance (s : Store) : Decidable (invariantCV s) :=
  List.decidableBAll _ s

/-- The latest version a surviving record projects (total variant used in
statements; agrees with `getLast?` on non-empty histories). -/
def lastVersion (h : MemoryWithHistory) : MemoryVersion :=
  h.Versions.getLastD ⟨0, "", 0, "", ""⟩

/-! ### Pointer-level model of `GetAllHistories`

Both `GetAllHistories` variants return `map[string]*MemoryWithHistory`.
Whether the pointers alias the stored records is exactly what claim C7 is
about, so here records live on an explicit heap: the store maps ids to
heap addresses, and mutation is a heap write.  The in-memory variant
(`return m.histories`) hands out the store's own pointers; the BadgerDB
variant unmarshals each value into a freshly allocated record. -/

abbrev Heap := Nat → MemoryWithHistory

/-- Store as id → heap address. -/
abbrev PtrStore := List (String × Nat)

/-- Writing through a pointer. -/
def heapSet (h : Heap) (p : Nat) (r : MemoryWithHistory) : Heap :=
  fun q => if q = p then r else h q

/-- `GetHistory` in the pointer model: follow the stored pointer. -/
def getHistoryPtr (entries : PtrStore) (h : Heap) (id : String) :
    Option MemoryWithHistory :=
  (entries.find? (fun e => e.1 == id)).map (fun e => h e.2)

/-- The in-memory variant of `GetAllHistories`: `return m.histories`, the
internal map itself, pointers included. -/
def GetAllHistoriesShared (entries : PtrStore) : PtrStore := entries

/-- The BadgerDB variant of `GetAllHistories`: each stored value is
unmarshalled into a fresh record.  `base` is the allocation frontier; the
copies occupy `base`, `base+1`, ... -/
def GetAllHistoriesCopied : PtrStore → Heap → Nat → PtrStore × Heap
  | [], h, _ => ([], h)
  | e :: t, h, base =>
    let rest := GetAllHistoriesCopied t (heapSet h base (h e.2)) (base + 1)
    ((e.1, base) :: rest.1, rest.2)

/-- The versions currently stored under an id (empty list for an unseen
id); the baseline `AddVersion` appends to. -/
def oldVersions (s : Store) (id : String) : List MemoryVersion :=
  match lookupMem s id with
  | some h => h.Versions
  | none => []

/-- Every stored record's tag list is duplicate-free under exact string
equality. -/
def tagsNodup (s : Store) : Prop :=
  ∀ e ∈ s, e.2.Tags.Nodup

instance (s : Store) : Decidable (tagsNodup s) :=
  List.decidableBAll _ s

/-- The records a by-context fold ranges over: context matches exactly and
the history is non-empty (records with no versions never surface in query
results). -/
def contextMatching (entries : Store) (contextID : String) : Store :=
  entries.filter
    (fun e => e.2.Context == contextID && !(e.2.Versions.isEmpty))

/-- A `SearchFilter` with every field at its zero value. -/
def emptyFilter : SearchFilter := {}

/-! ### Concrete fixtures used by counterexamples and witnesses -/

def v1 : MemoryVersion := ⟨1, "hello", 1, "alice", "init"⟩

def recSimple : MemoryWithHistory := ⟨"m1", 1, [v1], "ctxA", ["x"], 1, 1, []⟩

/-- A store holding one two-version record, built by the operations
themselves. -/
def demoStoreC1 : Store :=
  AddVersion (AddVersion [] "m1" "hello" "alice" "init" "ctxA" ["x"] 1)
    "m1" "world" "bob" "upd" "ctxA" ["x", "y"] 2

/-- Its compacted export (`includeVersions=false`). -/
def demoExportC1 : ExportData := ExportMemories demoStoreC1 [] false 3

def recAB : MemoryWithHistory := ⟨"m1", 1, [v1], "ctxA", ["a", "b"], 1, 1, []⟩

def demoC4 : Store := [("m1", recAB)]

def anyFilterC4 : SearchFilter := { Tags := ["a", "c"], TagFilterMode := "any" }

def allFilterC4 : SearchFilter := { Tags := ["a", "c"], TagFilterMode := "all" }

def recC6A : MemoryWithHistory := ⟨"a", 1, [⟨1, "A", 1, "u", ""⟩], "c", [], 1, 1, []⟩

def recC6B : MemoryWithHistory := ⟨"b", 1, [⟨1, "B", 1, "u", ""⟩], "c", [], 1, 1, []⟩

/-- Two iteration orders of the same two-record map state. -/
def entriesC6L : Store := [("a", recC6A), ("b", recC6B)]

def entriesC6R : Store := [("b", recC6B), ("a", recC6A)]

def recC7A : MemoryWithHistory := ⟨"m1", 1, [⟨1, "old", 1, "u", ""⟩], "c", [], 1, 1, []⟩

def recC7B : MemoryWithHistory := ⟨"m1", 1, [⟨1, "new", 1, "u", ""⟩], "c", [], 1, 1, []⟩

def ptrsC7 : PtrStore := [("m1", 0)]

def heapC7 : Heap := fun _ => recC7A

def recTagLower : MemoryWithHistory := ⟨"m1", 1, [v1], "c", ["a"], 1, 1, []⟩

/-- A record with an empty version history, as `ImportMemories` can store. -/
def zeroVerRec : MemoryWithHistory := ⟨"z", 0, [], "c", ["t"], 1, 1, []⟩

/-- A record whose `created_at` is the Go zero time. -/
def zeroTimeRec : MemoryWithHistory := ⟨"m", 1, [v1], "c", [], 0, 5, []⟩

def ctxRec : MemoryWithHistory := ⟨"m", 1, [v1], "c", [], 1, 1, []⟩

def demoC10 : Store := [("z", zeroVerRec), ("m1", recSimple)]

/-- Pairwise-distinct ids for the large-store fixture. -/
def idOf (i : Nat) : String := String.mk (List.replicate i 'a')

def bigRecC9 (i : Nat) : MemoryWithHistory := ⟨idOf i, 1, [v1], "c", [], 1, 1, []⟩

/-- 10001 records, all in context "c": one more than the cap
`GetContextStats` passes to its by-context query. -/
def bigC9 : Store := (List.range 10001).map (fun i => (idOf i, bigRecC9 i))

/-! ### Association-list lemmas for the store -/

theorem find?_overwrite (s : Store) (id : String) (r : MemoryWithHistory)
    (hany : s.any (fun e => e.1 == id) = true) :
    (s.map (fun e => if e.1 == id then (id, r) else e)).find?
      (fun e => e.1 == id) = some (id, r) := by
  induction s with
  | nil => simp at hany
  | cons e t ih =>
    cases hbe : (e.1 == id) with
    | true => simp [List.find?, hbe]
    | false =>
      have hany' : t.any (fun x => x.1 == id) = true := by
        simpa [List.any_cons, hbe] using hany
      simpa [List.find?, hbe] using ih hany'

theorem find?_overwrite_other (s : Store) (id id2 : String)
    (r : MemoryWithHistory) (h : id2 ≠ id) :
    (s.map (fun e => if e.1 == id then (id, r) else e)).find?
      (fun e => e.1 == id2) = s.find? (fun e => e.1 == id2) := by
  induction s with
  | nil => rfl
  | cons e t ih =>
    cases hbe : (e.1 == id) with
    | true =>
      have he1 : e.1 = id := by simpa using hbe
      have h1 : (id == id2) = false := by
        simp [beq_eq_false_iff_ne]; exact fun hh => h hh.symm
      have h2 : (e.1 == id2) = false := by rw [he1]; exact h1
      simpa [List.find?, hbe, h1, h2] using ih
    | false =>
      simp only [List.map_cons, if_neg (by simp [hbe] : ¬(e.1 == id) = true)]
      cases hb2 : (e.1 == id2) with
      | true => simp [List.find?, hb2]
      | false => simpa [List.find?, hb2] using ih

theorem lookupMem_setMem_self (s : Store) (id : String)
    (r : MemoryWithHistory) : lookupMem (setMem s id r) id = some r := by
  unfold lookupMem setMem
  split
  case isTrue hany => rw [find?_overwrite s id r hany]; rfl
  case isFalse hany =>
    rw [List.find?_append]
    have hnone : s.find? (fun e => e.1 == id) = none := by
      rw [List.find?_eq_none]
      intro x hx hpx
      exact hany (List.any_eq_true.mpr ⟨x, hx, hpx⟩)
    simp [hnone, List.find?]

theorem lookupMem_setMem_other (s : Store) (id id2 : String)
    (r : MemoryWithHistory) (h : id2 ≠ id) :
    lookupMem (setMem s id r) id2 = lookupMem s id2 := by
  unfold lookupMem setMem
  split
  · rw [find?_overwrite_other s id id2 r h]
  · rw [List.find?_append]
    have h1 : (id == id2) = false := by
      simp [beq_eq_false_iff_ne]; exact fun hh => h hh.symm
    simp [List.find?, h1]

theorem lookupMem_of_mem (s : Store) (e : String × MemoryWithHistory)
    (hnd : (keys s).Nodup) (he : e ∈ s) : lookupMem s e.1 = some e.2 := by
  induction s with
  | nil => cases he
  | cons a t ih =>
    rcases List.mem_cons.mp he with rfl | ht
    · simp [lookupMem, List.find?]
    · have hnd2 : a.1 ∉ keys t ∧ (keys t).Nodup := by
        simpa [keys, List.nodup_cons] using hnd
      have hne : (a.1 == e.1) = false := by
        rw [beq_eq_false_iff_ne]
        intro hh
        have hmem : e.1 ∈ keys t := List.mem_map.mpr ⟨e, ht, rfl⟩
        exact hnd2.1 (by rw [hh]; exact hmem)
      simpa [lookupMem, List.find?, hne] using ih hnd2.2 ht

/-- First-match search when the matching element is unique. -/
theorem find?_of_unique {α : Type} (q : α → Bool) :
    ∀ (l : List α) (x : α), x ∈ l → q x = true →
      (∀ y ∈ l, q y = true → y = x) → l.find? q = some x := by
  intro l
  induction l with
  | nil => intro x hx; cases hx
  | cons a t ih =>
    intro x hx hqx huniq
    cases hqa : q a with
    | true =>
      have hax : a = x := huniq a (List.mem_cons_self a t) hqa
      subst hax
      simp [List.find?, hqa]
    | false =>
      have hxt : x ∈ t := by
        rcases List.mem_cons.mp hx with rfl | ht
        · rw [hqx] at hqa; cases hqa
        · exact ht
      have huniq' : ∀ y ∈ t, q y = true → y = x := fun y hy => huniq y (List.mem_cons_of_mem a hy)
      simpa [List.find?, hqa] using ih x hxt hqx huniq'

/-- Lookup after `ImportMemories`-style folding: the last record of
the imported list with the wanted `ID` wins, else the target store
answers. -/
theorem lookupMem_import (ms : List MemoryWithHistory) :
    ∀ (s : Store) (id : String),
      lookupMem (ms.foldl (fun acc m => setMem acc m.ID m) s) id =
        (ms.reverse.find? (fun m => m.ID == id)).or (lookupMem s id) := by
  induction ms with
  | nil => intro s id; simp
  | cons m t ih =>
    intro s id
    rw [List.foldl_cons, ih, List.reverse_cons, List.find?_append,
      Option.or_assoc]
    congr 1
    cases hm : (m.ID == id) with
    | true =>
      have : m.ID = id := by simpa using hm
      rw [← this, lookupMem_setMem_self]
      simp [List.find?, hm]
    | false =>
      have : id ≠ m.ID := fun hh => by simp [hh] at hm
      rw [lookupMem_setMem_other s m.ID id m this]
      simp [List.find?, hm]

theorem lookupMem_mem (s : Store) (id : String) (h : MemoryWithHistory)
    (hl : lookupMem s id = some h) : ∃ e ∈ s, e.1 = id ∧ e.2 = h := by
  unfold lookupMem at hl
  cases hf : s.find? (fun e => e.1 == id) with
  | none => rw [hf] at hl; cases hl
  | some e =>
    rw [hf] at hl
    refine ⟨e, List.mem_of_find?_eq_some hf, ?_, ?_⟩
    · simpa using List.find?_some hf
    · simpa using hl


theorem invariantCV_setMem (s : Store) (id : String) (r : MemoryWithHistory)
    (hs : invariantCV s) (hr : r.CurrentVersion = r.Versions.length) :
    invariantCV (setMem s id r) := by
  intro e he
  unfold setMem at he
  split at he
  · rcases List.mem_map.mp he with ⟨x, hx, rfl⟩
    by_cases hbe : (x.1 == id) = true
    · simpa [hbe] using hr
    · simpa [hbe] using hs x hx
  · rcases List.mem_append.mp he with hx | hx
    · exact hs e hx
    · rcases List.mem_singleton.mp hx with rfl
      exact hr

theorem invariantCV_AddVersion (s : Store) (id c a n ctx : String)
    (tags : List String) (now : Time) (hs : invariantCV s) :
    invariantCV (AddVersion s id c a n ctx tags now) := by
  unfold AddVersion
  exact invariantCV_setMem s id _ hs (by simp)

theorem invariantCV_sublist_closed (s : Store) (p : String × MemoryWithHistory → Bool)
    (hs : invariantCV s) : invariantCV (s.filter p) :=
  fun e he => hs e (List.mem_of_mem_filter he)

theorem invariantCV_DeleteMemoryHistory (s s' : Store) (id : String)
    (hs : invariantCV s) (h : DeleteMemoryHistory s id = Except.ok s') :
    invariantCV s' := by
  unfold DeleteMemoryHistory at h
  split at h
  · cases h; exact invariantCV_sublist_closed s _ hs
  · cases h

theorem invariantCV_BatchCreate (memories : List BatchCreateItem) (now : Time) :
    ∀ (s : Store) (r0 : BatchOperationResult), invariantCV s →
      invariantCV (memories.foldl
        (fun acc mem =>
          (AddVersion acc.1 mem.ID mem.Content mem.ClientID "Batch import"
            mem.Context mem.Tags now,
           { acc.2 with Successful := acc.2.Successful + 1 })) (s, r0)).1 := by
  induction memories with
  | nil => intro s r0 hs; exact hs
  | cons m t ih =>
    intro s r0 hs
    exact ih _ _ (invariantCV_AddVersion s m.ID m.Content m.ClientID
      "Batch import" m.Context m.Tags now hs)

theorem invariantCV_BatchDelete (memoryIDs : List String) :
    ∀ (s : Store) (r0 : BatchOperationResult), invariantCV s →
      invariantCV (memoryIDs.foldl
        (fun acc id =>
          match DeleteMemoryHistory acc.1 id with
          | Except.ok s' =>
            (s', { acc.2 with Successful := acc.2.Successful + 1 })
          | Except.error e =>
            (acc.1,
             { acc.2 with
               Failed := acc.2.Failed + 1
               Errors := acc.2.Errors ++ [failedDeleteMsg id e] })) (s, r0)).1 := by
  induction memoryIDs with
  | nil => intro s r0 hs; exact hs
  | cons i t ih =>
    intro s r0 hs
    rw [List.foldl_cons]
    cases hd : DeleteMemoryHistory s i with
    | ok s' => simp only [hd]; exact ih _ _ (invariantCV_DeleteMemoryHistory s s' i hs hd)
    | error e => simp only [hd]; exact ih _ _ hs

theorem invariantCV_BatchAddTags (memoryIDs tags : List String) (now : Time) :
    ∀ (s : Store) (r0 : BatchOperationResult), invariantCV s →
      invariantCV (memoryIDs.foldl
        (fun acc id =>
          match lookupMem acc.1 id with
          | some history =>
            (setMem acc.1 id
              { history with
                Tags := addTagsDedup history.Tags tags
                UpdatedAt := now },
             { acc.2 with Successful := acc.2.Successful + 1 })
          | none =>
            (acc.1,
             { acc.2 with
               Failed := acc.2.Failed + 1
               Errors := acc.2.Errors ++ [memoryNotFoundMsg id] })) (s, r0)).1 := by
  induction memoryIDs with
  | nil => intro s r0 hs; exact hs
  | cons i t ih =>
    intro s r0 hs
    rw [List.foldl_cons]
    cases hd : lookupMem s i with
    | some history =>
      simp only [hd]
      refine ih _ _ (invariantCV_setMem s i _ hs ?_)
      rcases lookupMem_mem s i history hd with ⟨e, he, _, rfl⟩
      simpa using hs e he
    | none => simp only [hd]; exact ih _ _ hs

theorem invariantCV_BatchRemoveTags (memoryIDs tags : List String) (now : Time) :
    ∀ (s : Store) (r0 : BatchOperationResult), invariantCV s →
      invariantCV (memoryIDs.foldl
        (fun acc id =>
          match lookupMem acc.1 id with
          | some history =>
            (setMem acc.1 id
              { history with
                Tags := history.Tags.filter (fun t => !(tags.contains t))
                UpdatedAt := now },
             { acc.2 with Successful := acc.2.Successful + 1 })
          | none =>
            (acc.1,
             { acc.2 with
               Failed := acc.2.Failed + 1
               Errors := acc.2.Errors ++ [memoryNotFoundMsg id] })) (s, r0)).1 := by
  induction memoryIDs with
  | nil => intro s r0 hs; exact hs
  | cons i t ih =>
    intro s r0 hs
    rw [List.foldl_cons]
    cases hd : lookupMem s i with
    | some history =>
      simp only [hd]
      refine ih _ _ (invariantCV_setMem s i _ hs ?_)
      rcases lookupMem_mem s i history hd with ⟨e, he, _, rfl⟩
      simpa using hs e he
    | none => simp only [hd]; exact ih _ _ hs

theorem invariantCV_Import (ms : List MemoryWithHistory) :
    ∀ (s : Store), invariantCV s →
      (∀ m ∈ ms, m.CurrentVersion = m.Versions.length) →
      invariantCV (ms.foldl (fun acc m => setMem acc m.ID m) s) := by
  induction ms with
  | nil => intro s hs _; exact hs
  | cons m t ih =>
    intro s hs hm
    rw [List.foldl_cons]
    exact ih _ (invariantCV_setMem s m.ID m hs
      (hm m (List.mem_cons_self m t)))
      (fun x hx => hm x (List.mem_cons_of_mem m hx))

/-! ### Tag-union lemmas -/

theorem addTagsDedup_cons_of_contains (existing : List String)
    (tag : String) (t : List String) (hc : existing.contains tag = true) :
    addTagsDedup existing (tag :: t) = addTagsDedup existing t := by
  have hm : tag ∈ existing := by simpa using hc
  unfold addTagsDedup
  rw [List.foldl_cons]
  simp [hm]

theorem addTagsDedup_cons_of_new (existing : List String)
    (tag : String) (t : List String) (hc : existing.contains tag = false) :
    addTagsDedup existing (tag :: t) = addTagsDedup (existing ++ [tag]) t := by
  have hm : tag ∉ existing := by simpa using hc
  unfold addTagsDedup
  rw [List.foldl_cons]
  simp [hm]

theorem addTagsDedup_nodup (toAdd : List String) :
    ∀ existing : List String, existing.Nodup →
      (addTagsDedup existing toAdd).Nodup := by
  induction toAdd with
  | nil => intro existing h; exact h
  | cons tag t ih =>
    intro existing h
    cases hc : existing.contains tag with
    | true => rw [addTagsDedup_cons_of_contains existing tag t hc]; exact ih existing h
    | false =>
      have hnm : tag ∉ existing := by simpa using hc
      rw [addTagsDedup_cons_of_new existing tag t hc]
      refine ih (existing ++ [tag]) ?_
      rw [List.nodup_append]
      refine ⟨h, List.nodup_singleton tag, ?_⟩
      intro x hx hx1
      rcases List.mem_singleton.mp hx1 with rfl
      exact hnm hx

theorem mem_addTagsDedup (x : String) (toAdd : List String) :
    ∀ existing : List String,
      (x ∈ addTagsDedup existing toAdd ↔ x ∈ existing ∨ x ∈ toAdd) := by
  induction toAdd with
  | nil => intro existing; simp [addTagsDedup]
  | cons tag t ih =>
    intro existing
    cases hc : existing.contains tag with
    | true =>
      have hmem : tag ∈ existing := by simpa using hc
      rw [addTagsDedup_cons_of_contains existing tag t hc, ih]
      constructor
      · rintro (h | h)
        · exact Or.inl h
        · exact Or.inr (List.mem_cons_of_mem tag h)
      · rintro (h | h)
        · exact Or.inl h
        · rcases List.mem_cons.mp h with rfl | h2
          · exact Or.inl hmem
          · exact Or.inr h2
    | false =>
      rw [addTagsDedup_cons_of_new existing tag t hc, ih]
      simp [List.mem_append, List.mem_cons, or_assoc]

/-! ### Scan-loop characterization of the filter engine -/


theorem filterMemoriesAll_eq_filter (entries : Store) (f : SearchFilter) :
    FilterMemoriesAll entries f =
      (entries.filter
        (fun e => passesFilter f e.2 && !(e.2.Versions.isEmpty))).map
        (fun e => toSearchResult e.1 e.2 (lastVersion e.2)) := by
  induction entries with
  | nil => rfl
  | cons e t ih =>
    unfold FilterMemoriesAll at ih ⊢
    rw [List.filterMap_cons]
    cases hp : passesFilter f e.2 with
    | false => simp [resultOf, hp, ih]
    | true =>
      cases hv : e.2.Versions.getLast? with
      | none =>
        have hemp : e.2.Versions.isEmpty = true := by
          rw [List.getLast?_eq_none_iff] at hv
          simp [hv]
        simp [resultOf, hp, hv, hemp, ih]
      | some v =>
        have hemp : e.2.Versions.isEmpty = false := by
          cases hvs : e.2.Versions with
          | nil => rw [hvs] at hv; cases hv
          | cons a b => simp
        have hlast : lastVersion e.2 = v := by
          unfold lastVersion
          rw [List.getLastD_eq_getLast?, hv]
          rfl
        simp [resultOf, hp, hv, hemp, ih, hlast]

theorem mem_FilterMemories (entries : Store) (f : SearchFilter)
    (r : SearchResult) (hr : r ∈ FilterMemories entries f) :
    ∃ e ∈ entries, e.1 = r.ID ∧ e.2.Versions ≠ [] ∧
      passesFilter f e.2 = true := by
  have hr2 : r ∈ FilterMemoriesAll entries f := by
    simp only [FilterMemories] at hr
    split at hr
    · exact List.take_subset _ _ hr
    · exact hr
  rw [filterMemoriesAll_eq_filter] at hr2
  rcases List.mem_map.mp hr2 with ⟨e, he, rfl⟩
  have hcond := List.of_mem_filter he
  have hmem := List.mem_of_mem_filter he
  simp only [Bool.and_eq_true, Bool.not_eq_true'] at hcond
  refine ⟨e, hmem, rfl, ?_, hcond.1⟩
  intro hnil
  rw [hnil] at hcond
  simp at hcond

/-! ### Sentinel-fold lemmas used by the statistics -/

theorem minStep_eq_min (acc x : Nat) (hacc : acc ≠ 0) :
    (if acc = 0 ∨ x < acc then x else acc) = min acc x := by
  by_cases hlt : x < acc
  · rw [if_pos (Or.inr hlt), Nat.min_def,
      if_neg (Nat.not_le.mpr hlt)]
  · rw [if_neg (by rintro (h | h); exact hacc h; exact hlt h),
      Nat.min_def, if_pos (Nat.not_lt.mp hlt)]

theorem foldl_minStep_ne (l : List Nat) :
    ∀ acc : Nat, acc ≠ 0 → (∀ x ∈ l, x ≠ 0) →
      l.foldl (fun acc x => if acc = 0 ∨ x < acc then x else acc) acc =
        l.foldl min acc := by
  induction l with
  | nil => intro acc _ _; rfl
  | cons a t ih =>
    intro acc hacc hl
    rw [List.foldl_cons, List.foldl_cons,
      minStep_eq_min acc a hacc]
    have ha : a ≠ 0 := hl a (List.mem_cons_self a t)
    refine ih (min acc a) ?_ (fun x hx => hl x (List.mem_cons_of_mem a hx))
    rw [Nat.min_def]
    split
    · exact hacc
    · exact ha

theorem foldl_minStep (l : List Nat) (hl : ∀ x ∈ l, x ≠ 0) :
    l.foldl (fun acc x => if acc = 0 ∨ x < acc then x else acc) 0 =
      (l.min?).getD 0 := by
  cases l with
  | nil => rfl
  | cons a t =>
    rw [List.foldl_cons]
    have ha : a ≠ 0 := hl a (List.mem_cons_self a t)
    have h1 : (if (0 : Nat) = 0 ∨ a < 0 then a else 0) = a :=
      if_pos (Or.inl rfl)
    rw [h1, foldl_minStep_ne t a ha
      (fun x hx => hl x (List.mem_cons_of_mem a hx))]
    simp [List.min?]

theorem maxStep_eq_max (acc x : Nat) :
    (if acc = 0 ∨ x > acc then x else acc) = max acc x := by
  by_cases h0 : acc = 0
  · subst h0
    rw [if_pos (Or.inl rfl), Nat.max_eq_right (Nat.zero_le x)]
  · by_cases hgt : x > acc
    · rw [if_pos (Or.inr hgt), Nat.max_eq_right (Nat.le_of_lt hgt)]
    · rw [if_neg (by rintro (h | h); exact h0 h; exact hgt h),
        Nat.max_eq_left (Nat.not_lt.mp hgt)]

theorem foldl_maxStep (l : List Nat) :
    l.foldl (fun acc x => if acc = 0 ∨ x > acc then x else acc) 0 =
      (l.max?).getD 0 := by
  simp only [maxStep_eq_max]
  cases l with
  | nil => rfl
  | cons a t =>
    rw [List.foldl_cons, Nat.max_eq_right (Nat.zero_le a)]
    simp [List.max?]


theorem getAllHistoriesCopied_heap_below :
    ∀ (entries : PtrStore) (h : Heap) (base q : Nat), q < base →
      (GetAllHistoriesCopied entries h base).2 q = h q := by
  intro entries
  induction entries with
  | nil => intro h base q _; rfl
  | cons e t ih =>
    intro h base q hq
    unfold GetAllHistoriesCopied
    rw [ih _ _ _ (Nat.lt_succ_of_lt hq)]
    unfold heapSet
    rw [if_neg (Nat.ne_of_lt hq)]

theorem getAllHistoriesCopied_ptrs_ge :
    ∀ (entries : PtrStore) (h : Heap) (base : Nat),
      ∀ e ∈ (GetAllHistoriesCopied entries h base).1, base ≤ e.2 := by
  intro entries
  induction entries with
  | nil => intro h base e he; cases he
  | cons a t ih =>
    intro h base e he
    unfold GetAllHistoriesCopied at he
    rcases List.mem_cons.mp he with rfl | ht
    · exact Nat.le_refl base
    · exact Nat.le_of_succ_le (ih _ _ e ht)

theorem getHistoryPtr_congr (entries : PtrStore) (h h' : Heap)
    (hagree : ∀ e ∈ entries, h' e.2 = h e.2) (id : String) :
    getHistoryPtr entries h' id = getHistoryPtr entries h id := by
  unfold getHistoryPtr
  cases hf : entries.find? (fun e => e.1 == id) with
  | none => rfl
  | some e =>
    have hag := hagree e (List.mem_of_find?_eq_some hf)
    simp [hag]

/-- The copies carry the stored records faithfully: reading any id through
the copied map and heap agrees with reading it through the store. -/
theorem getHistoryPtr_copied :
    ∀ (entries : PtrStore) (h : Heap) (base : Nat),
      (∀ e ∈ entries, e.2 < base) → ∀ id : String,
      getHistoryPtr (GetAllHistoriesCopied entries h base).1
        (GetAllHistoriesCopied entries h base).2 id =
      getHistoryPtr entries h id := by
  intro entries
  induction entries with
  | nil => intro h base _ id; rfl
  | cons e t ih =>
    intro h base hwf id
    unfold GetAllHistoriesCopied getHistoryPtr
    rw [List.find?_cons, List.find?_cons]
    cases hbe : (e.1 == id) with
    | true =>
      show some ((GetAllHistoriesCopied t (heapSet h base (h e.2))
        (base + 1)).2 base) = some (h e.2)
      rw [getAllHistoriesCopied_heap_below t _ (base + 1) base
        (Nat.lt_succ_self base)]
      unfold heapSet
      rw [if_pos rfl]
    | false =>
      have hwf' : ∀ x ∈ t, x.2 < base + 1 :=
        fun x hx => Nat.lt_succ_of_lt (hwf x (List.mem_cons_of_mem e hx))
      have hih := ih (heapSet h base (h e.2)) (base + 1) hwf' id
      unfold getHistoryPtr at hih
      rw [hih]
      cases hf : t.find? (fun x => x.1 == id) with
      | none => rfl
      | some x =>
        show some (heapSet h base (h e.2) x.2) = some (h x.2)
        unfold heapSet
        rw [if_neg (Nat.ne_of_lt (hwf x
          (List.mem_cons_of_mem e (List.mem_of_find?_eq_some hf))))]

/-! ### Claim theorems -/

/-- C2: for every memory id (seen or unseen), `AddVersion` appends exactly
one new `MemoryVersion` numbered `previous count + 1` (so repeated calls
number versions 1, 2, 3, ... with no gaps or repeats), sets
`current_version` to that number, updates `updated_at`, sets the record's
context to the given context id, and replaces the record's tags wholesale
with the supplied list; no other version of the history and no other
record is modified. -/
theorem addVersion_appends_spec (s : Store)
    (id content author note ctx : String) (tags : List String) (now : Time) :
    ∃ r : MemoryWithHistory,
      lookupMem (AddVersion s id content author note ctx tags now) id =
        some r ∧
      r.Versions = oldVersions s id ++
        [⟨(oldVersions s id).length + 1, content, now, author, note⟩] ∧
      r.Versions.take (oldVersions s id).length = oldVersions s id ∧
      r.CurrentVersion = (oldVersions s id).length + 1 ∧
      r.UpdatedAt = now ∧ r.Context = ctx ∧ r.Tags = tags ∧
      (∀ id2, id2 ≠ id →
        lookupMem (AddVersion s id content author note ctx tags now) id2 =
          lookupMem s id2) ∧
      ((oldVersions s id).map (·.VersionNumber) =
          List.range' 1 (oldVersions s id).length →
        r.Versions.map (·.VersionNumber) =
          List.range' 1 ((oldVersions s id).length + 1)) := by
  have hold : (fetchOrNew s id ctx tags now).Versions = oldVersions s id := by
    unfold fetchOrNew oldVersions
    cases lookupMem s id <;> rfl
  refine ⟨{ fetchOrNew s id ctx tags now with
      Versions := oldVersions s id ++
        [⟨(oldVersions s id).length + 1, content, now, author, note⟩]
      CurrentVersion := (oldVersions s id).length + 1
      UpdatedAt := now
      Context := ctx
      Tags := tags }, ?_, rfl, ?_, rfl, rfl, rfl, rfl, ?_, ?_⟩
  · simp only [AddVersion]
    rw [lookupMem_setMem_self, hold]
  · dsimp only
    rw [List.take_left]
  · intro id2 hne
    simp only [AddVersion]
    exact lookupMem_setMem_other s id id2 _ hne
  · intro hnums
    dsimp only
    rw [List.map_append, hnums]
    simp [List.range'_concat, Nat.add_comm]

/-- Witness for C2 at a seen and an unseen id. -/
theorem addVersion_appends_spec_witness :
    ∃ r : MemoryWithHistory,
      lookupMem (AddVersion [("m1", recSimple)] "m1" "world" "bob" "upd"
        "ctxA" ["x", "y"] 2) "m1" = some r ∧
      r.Versions.map (·.VersionNumber) = [1, 2] ∧
      r.CurrentVersion = 2 ∧ r.Tags = ["x", "y"] := by
  obtain ⟨r, h1, h2, _, h4, _, _, h7, _, h9⟩ :=
    addVersion_appends_spec [("m1", recSimple)] "m1" "world" "bob" "upd"
      "ctxA" ["x", "y"] 2
  refine ⟨r, h1, ?_, ?_, h7⟩
  · rw [h9 (by decide)]
    decide
  · rw [h4]
    decide

/-- C1 (counterexample): the invariant `current_version == len(versions)`
is NOT preserved by every Version Store operation as claimed:
`ImportMemories` stores records verbatim, and importing the compacted
export of a two-version store (built entirely by `AddVersion` and
`ExportMemories(includeVersions=false)`) yields a record with
`current_version = 2` but a single version. -/
theorem invariant_import_counterexample :
    invariantCV demoStoreC1 ∧ ¬ invariantCV (ImportMemories [] demoExportC1) := by
  constructor
  · decide
  · decide

/-- C1 (amended): `current_version == len(versions)` is preserved by
`AddVersion`, `DeleteMemoryHistory`, `BatchCreateMemories`,
`BatchDeleteMemories`, `BatchAddTags` and `BatchRemoveTags`, and by
`ImportMemories` exactly when every imported record itself satisfies it;
an import of a violating record stores the violation. -/
theorem invariant_preserved_amended (s : Store) (hs : invariantCV s) :
    (∀ id c a n ctx tags now,
      invariantCV (AddVersion s id c a n ctx tags now)) ∧
    (∀ id s', DeleteMemoryHistory s id = Except.ok s' → invariantCV s') ∧
    (∀ items now, invariantCV (BatchCreateMemories s items now).1) ∧
    (∀ ids, invariantCV (BatchDeleteMemories s ids).1) ∧
    (∀ ids tags now, invariantCV (BatchAddTags s ids tags now).1) ∧
    (∀ ids tags now, invariantCV (BatchRemoveTags s ids tags now).1) ∧
    (∀ ex : ExportData,
      (∀ m ∈ ex.Memories, m.CurrentVersion = m.Versions.length) →
      invariantCV (ImportMemories s ex)) := by
  refine ⟨?_, ?_, ?_, ?_, ?_, ?_, ?_⟩
  · intro id c a n ctx tags now
    exact invariantCV_AddVersion s id c a n ctx tags now hs
  · intro id s' h
    exact invariantCV_DeleteMemoryHistory s s' id hs h
  · intro items now
    exact invariantCV_BatchCreate items now s _ hs
  · intro ids
    exact invariantCV_BatchDelete ids s _ hs
  · intro ids tags now
    exact invariantCV_BatchAddTags ids tags now s _ hs
  · intro ids tags now
    exact invariantCV_BatchRemoveTags ids tags now s _ hs
  · intro ex hex
    exact invariantCV_Import ex.Memories s hs hex

/-- Witness for the amended C1 on a concrete store, exercising every listed
operation including a well-formed import. -/
theorem invariant_preserved_amended_witness :
    invariantCV (AddVersion [("m1", recSimple)] "m2" "c" "a" "n" "ctx" [] 4) ∧
    invariantCV (BatchAddTags [("m1", recSimple)] ["m1"] ["y"] 4).1 ∧
    invariantCV (ImportMemories [("m1", recSimple)]
      ⟨4, "u", [recAB], [], [], "1.0"⟩) := by
  have h := invariant_preserved_amended [("m1", recSimple)] (by decide)
  exact ⟨h.1 "m2" "c" "a" "n" "ctx" [] 4,
    h.2.2.2.2.1 ["m1"] ["y"] 4,
    h.2.2.2.2.2.2 ⟨4, "u", [recAB], [], [], "1.0"⟩ (by decide)⟩

/-- C3: `DeleteMemoryHistory` on an unseen id reports the not-found error,
so a batch delete of `[existingID, missingID]` tallies one success and one
failure, with exactly one error entry naming the missing id, and the
existing record is removed. -/
theorem batchDelete_mixed_tally (s : Store) (a b : String)
    (ha : s.any (fun e => e.1 == a) = true)
    (hb : s.any (fun e => e.1 == b) = false) :
    DeleteMemoryHistory s b = Except.error (notFoundMsg b) ∧
    (BatchDeleteMemories s [a, b]).2.Successful = 1 ∧
    (BatchDeleteMemories s [a, b]).2.Failed = 1 ∧
    (BatchDeleteMemories s [a, b]).2.Errors =
      [failedDeleteMsg b (notFoundMsg b)] ∧
    lookupMem (BatchDeleteMemories s [a, b]).1 a = none := by
  have hd1 : DeleteMemoryHistory s a =
      Except.ok (s.filter (fun e => !(e.1 == a))) := by
    unfold DeleteMemoryHistory
    rw [if_pos ha]
  have hb1 : (s.filter (fun e => !(e.1 == a))).any
      (fun e => e.1 == b) = false := by
    cases h2 : (s.filter (fun e => !(e.1 == a))).any (fun e => e.1 == b) with
    | false => rfl
    | true =>
      exfalso
      rcases List.any_eq_true.mp h2 with ⟨x, hx, hpx⟩
      have hany : s.any (fun e => e.1 == b) = true :=
        List.any_eq_true.mpr ⟨x, List.mem_of_mem_filter hx, hpx⟩
      exact absurd (hany.symm.trans hb) (by decide)
  have hdb : DeleteMemoryHistory s b = Except.error (notFoundMsg b) := by
    unfold DeleteMemoryHistory
    rw [if_neg (by simp [hb])]
  have hdb1 : DeleteMemoryHistory (s.filter (fun e => !(e.1 == a))) b =
      Except.error (notFoundMsg b) := by
    unfold DeleteMemoryHistory
    rw [if_neg (by simp [hb1])]
  have hrun : BatchDeleteMemories s [a, b] =
      (s.filter (fun e => !(e.1 == a)),
       { OperationType := "batch_delete", Total := 2, Successful := 1,
         Failed := 1, Errors := [failedDeleteMsg b (notFoundMsg b)] }) := by
    simp [BatchDeleteMemories, hd1, hdb1]
  refine ⟨hdb, ?_, ?_, ?_, ?_⟩
  · rw [hrun]
  · rw [hrun]
  · rw [hrun]
  · rw [hrun]
    rw [lookupMem, List.find?_eq_none.mpr]
    · rfl
    · intro x hx
      have := List.of_mem_filter hx
      simp only [Bool.not_eq_true'] at this
      simp [this]

/-- Witness for C3 on a concrete store containing `"m1"` but not
`"nope"`. -/
theorem batchDelete_mixed_tally_witness :
    DeleteMemoryHistory [("m1", recSimple)] "nope" =
      Except.error (notFoundMsg "nope") ∧
    (BatchDeleteMemories [("m1", recSimple)] ["m1", "nope"]).2.Successful = 1 ∧
    (BatchDeleteMemories [("m1", recSimple)] ["m1", "nope"]).2.Failed = 1 ∧
    (BatchDeleteMemories [("m1", recSimple)] ["m1", "nope"]).2.Errors =
      [failedDeleteMsg "nope" (notFoundMsg "nope")] ∧
    lookupMem (BatchDeleteMemories [("m1", recSimple)] ["m1", "nope"]).1
      "m1" = none :=
  batchDelete_mixed_tally [("m1", recSimple)] "m1" "nope"
    (by decide) (by decide)

/-- C4: with a non-empty filter tag list, mode "all" includes a record
exactly when every filter tag appears case-insensitively among the
record's tags (AND), and any other mode (including "any", empty, or
unrecognized strings) exactly when at least one does (OR); a record
failing the tag predicate never surfaces in `FilterMemories`.  In
particular a record tagged `{a, b}` matches filter tags `[a, c]` in mode
"any" but not in mode "all". -/
theorem tagFilter_modes (f : SearchFilter) (h : MemoryWithHistory)
    (hne : f.Tags ≠ []) :
    (f.TagFilterMode = "all" →
      (matchesTagFilter f h = true ↔
        ∀ t ∈ f.Tags, ∃ mt ∈ h.Tags, eqFold mt t = true)) ∧
    (f.TagFilterMode ≠ "all" →
      (matchesTagFilter f h = true ↔
        ∃ t ∈ f.Tags, ∃ mt ∈ h.Tags, eqFold mt t = true)) ∧
    (∀ (entries : Store) (id : String),
      (keys entries).Nodup → (id, h) ∈ entries →
      matchesTagFilter f h = false →
      ∀ r ∈ FilterMemories entries f, r.ID ≠ id) ∧
    ((FilterMemories demoC4 anyFilterC4).map (·.ID) = ["m1"] ∧
      FilterMemories demoC4 allFilterC4 = []) := by
  have hempty : f.Tags.isEmpty = false := by
    cases hT : f.Tags with
    | nil => exact absurd hT hne
    | cons x t => rfl
  refine ⟨?_, ?_, ?_, by decide, by decide⟩
  · intro hmode
    unfold matchesTagFilter
    rw [hempty, if_neg (by simp), if_pos (by simp [hmode])]
    simp [List.all_eq_true, List.any_eq_true]
  · intro hmode
    unfold matchesTagFilter
    rw [hempty, if_neg (by simp), if_neg (by simp [hmode])]
    simp [List.any_eq_true]
  · intro entries id hnd hmem hmf r hr heq
    rcases mem_FilterMemories entries f r hr with ⟨e, he, hid, _, hp⟩
    have h1 : lookupMem entries e.1 = some e.2 :=
      lookupMem_of_mem entries e hnd he
    have h2 : lookupMem entries id = some h :=
      lookupMem_of_mem entries (id, h) hnd hmem
    rw [hid, heq, h2] at h1
    have h3 : h = e.2 := by injection h1
    simp only [passesFilter, Bool.and_eq_true] at hp
    rw [← h3] at hp
    rw [hp.2] at hmf
    cases hmf

/-- Witness for C4: the AND/OR characterizations and the exclusion,
instantiated on the `{a, b}` record with filter tags `[a, c]`. -/
theorem tagFilter_modes_witness :
    (matchesTagFilter allFilterC4 recAB = true ↔
      ∀ t ∈ allFilterC4.Tags, ∃ mt ∈ recAB.Tags, eqFold mt t = true) ∧
    (matchesTagFilter anyFilterC4 recAB = true ↔
      ∃ t ∈ anyFilterC4.Tags, ∃ mt ∈ recAB.Tags, eqFold mt t = true) := by
  have hall := tagFilter_modes allFilterC4 recAB (by decide)
  have hany := tagFilter_modes anyFilterC4 recAB (by decide)
  exact ⟨hall.1 rfl, hany.2.1 (by decide)⟩

theorem tagsNodup_setMem (s : Store) (id : String) (r : MemoryWithHistory)
    (hs : tagsNodup s) (hr : r.Tags.Nodup) : tagsNodup (setMem s id r) := by
  intro e he
  unfold setMem at he
  split at he
  · rcases List.mem_map.mp he with ⟨x, hx, rfl⟩
    by_cases hbe : (x.1 == id) = true
    · simpa [hbe] using hr
    · simpa [hbe] using hs x hx
  · rcases List.mem_append.mp he with hx | hx
    · exact hs e hx
    · rcases List.mem_singleton.mp hx with rfl
      exact hr

theorem tagsNodup_BatchAddTags (memoryIDs tags : List String) (now : Time) :
    ∀ (s : Store) (r0 : BatchOperationResult), tagsNodup s →
      tagsNodup (memoryIDs.foldl
        (fun acc id =>
          match lookupMem acc.1 id with
          | some history =>
            (setMem acc.1 id
              { history with
                Tags := addTagsDedup history.Tags tags
                UpdatedAt := now },
             { acc.2 with Successful := acc.2.Successful + 1 })
          | none =>
            (acc.1,
             { acc.2 with
               Failed := acc.2.Failed + 1
               Errors := acc.2.Errors ++ [memoryNotFoundMsg id] })) (s, r0)).1 := by
  induction memoryIDs with
  | nil => intro s r0 hs; exact hs
  | cons i t ih =>
    intro s r0 hs
    rw [List.foldl_cons]
    cases hd : lookupMem s i with
    | some history =>
      simp only [hd]
      refine ih _ _ (tagsNodup_setMem s i _ hs ?_)
      rcases lookupMem_mem s i history hd with ⟨e, he, _, rfl⟩
      exact addTagsDedup_nodup tags _ (hs e he)
    | none => simp only [hd]; exact ih _ _ hs

/-- C8 (counterexample): a record's tags are NOT a set under
case-insensitive identity.  `AddVersion` stores the supplied tag list
verbatim, so `["A", "a"]` persists although the two entries are
case-insensitively equal; and `BatchAddTags` deduplicates only under exact
equality, so adding `"A"` to a record tagged `["a"]` yields `["a", "A"]`. -/
theorem tags_case_insensitive_counterexample :
    ((lookupMem (AddVersion [] "m1" "c" "alice" "n" "ctx" ["A", "a"] 1)
        "m1").map (·.Tags) = some ["A", "a"] ∧
      eqFold "A" "a" = true) ∧
    ((lookupMem (BatchAddTags [("m1", recTagLower)] ["m1"] ["A"] 2).1
        "m1").map (·.Tags) = some ["a", "A"] ∧
      eqFold "a" "A" = true) := by
  refine ⟨⟨?_, by decide⟩, ⟨?_, by decide⟩⟩
  · decide
  · decide

/-- C8 (amended): tag deduplication is under exact (case-sensitive) string
equality only: `BatchAddTags` preserves exact duplicate-freeness of every
record's tag list, while `AddVersion` replaces a record's tags verbatim
with the supplied list, performing no deduplication at all; entries that
differ only by case may therefore coexist. -/
theorem tags_dedup_amended (s : Store) (ids tags : List String) (now : Time) :
    (tagsNodup s → tagsNodup (BatchAddTags s ids tags now).1) ∧
    (∀ id c a n ctx now2, ∃ r,
      lookupMem (AddVersion s id c a n ctx tags now2) id = some r ∧
      r.Tags = tags) := by
  constructor
  · intro hs
    exact tagsNodup_BatchAddTags ids tags now s _ hs
  · intro id c a n ctx now2
    exact ⟨_, by simp only [AddVersion]; exact lookupMem_setMem_self s id _,
      rfl⟩

/-- Witness for the amended C8 on a concrete store. -/
theorem tags_dedup_amended_witness :
    tagsNodup (BatchAddTags [("m1", recTagLower)] ["m1"] ["A", "a"] 2).1 ∧
    (∃ r, lookupMem (AddVersion [("m1", recTagLower)] "m1" "c" "a" "n"
      "ctx" ["A", "a"] 3) "m1" = some r ∧ r.Tags = ["A", "a"]) := by
  have h := tags_dedup_amended [("m1", recTagLower)] ["m1"] ["A", "a"] 2
  exact ⟨h.1 (by decide), h.2 "m1" "c" "a" "n" "ctx" 3⟩

/-- C10: `FilterMemories` only ever emits results for records with a
non-empty version history — a stored record with zero versions is excluded
from every query result, whatever the filter; and `ImportMemories` can
create such records, since it stores imported records verbatim. -/
theorem zeroVersion_records_excluded :
    (∀ (entries : Store) (f : SearchFilter) (id : String)
        (h : MemoryWithHistory),
      (keys entries).Nodup → (id, h) ∈ entries → h.Versions = [] →
      ∀ r ∈ FilterMemories entries f, r.ID ≠ id) ∧
    (∀ (s : Store) (now : Time) (eb ver : String) (m : MemoryWithHistory),
      lookupMem (ImportMemories s ⟨now, eb, [m], [], [], ver⟩) m.ID =
        some m) := by
  constructor
  · intro entries f id h hnd hmem hv r hr heq
    rcases mem_FilterMemories entries f r hr with ⟨e, he, hid, hnil, _⟩
    have h1 := lookupMem_of_mem entries e hnd he
    have h2 := lookupMem_of_mem entries (id, h) hnd hmem
    rw [hid, heq] at h1
    rw [h2] at h1
    have h3 : h = e.2 := by injection h1
    rw [← h3] at hnil
    exact hnil hv
  · intro s now eb ver m
    simp only [ImportMemories, List.foldl_cons, List.foldl_nil]
    exact lookupMem_setMem_self s m.ID m

/-- Witness for C10: a zero-version record (as import stores it) never
appears in results of the unrestricted filter over a store holding it next
to a normal record. -/
theorem zeroVersion_records_excluded_witness :
    (∀ r ∈ FilterMemories demoC10 emptyFilter, r.ID ≠ "z") ∧
    lookupMem (ImportMemories [] ⟨1, "u", [zeroVerRec], [], [], "1.0"⟩)
      "z" = some zeroVerRec := by
  refine ⟨zeroVersion_records_excluded.1 demoC10 emptyFilter "z" zeroVerRec
    (by decide) (by decide) rfl, ?_⟩
  exact zeroVersion_records_excluded.2 [] 1 "u" "1.0" zeroVerRec

/-- C6 (counterexample): two calls to `FilterMemories` over the same store
state need NOT return the same sequence.  `FilterMemories` ranges over a
Go map (`for memoryID, history := range allHistories`), whose iteration
order is not a function of the map's contents; the two orders
`entriesC6L` and `entriesC6R` of one and the same two-record map state
produce different result sequences. -/
theorem filter_order_counterexample :
    entriesC6L.Perm entriesC6R ∧
    FilterMemories entriesC6L emptyFilter ≠
      FilterMemories entriesC6R emptyFilter := by
  constructor
  · exact List.Perm.swap ("b", recC6B) ("a", recC6A) []
  · decide

/-- C6 (amended): for a fixed store state the MULTISET of results is
deterministic — any two iteration orders of the same map yield permuted
result sequences — and with `max_results` positive the returned sequence is
a prefix of that call's accumulated sequence. -/
theorem filter_results_perm_amended (entries₁ entries₂ : Store)
    (f : SearchFilter) (hperm : entries₁.Perm entries₂) :
    (FilterMemoriesAll entries₁ f).Perm (FilterMemoriesAll entries₂ f) ∧
    FilterMemories entries₁ f <+: FilterMemoriesAll entries₁ f := by
  constructor
  · exact hperm.filterMap _
  · simp only [FilterMemories]
    split
    · exact List.take_prefix _ _
    · exact List.prefix_refl _

/-- Witness for the amended C6 on the two concrete orders. -/
theorem filter_results_perm_amended_witness :
    (FilterMemoriesAll entriesC6L emptyFilter).Perm
      (FilterMemoriesAll entriesC6R emptyFilter) ∧
    FilterMemories entriesC6L emptyFilter <+:
      FilterMemoriesAll entriesC6L emptyFilter :=
  filter_results_perm_amended entriesC6L entriesC6R emptyFilter
    (List.Perm.swap ("b", recC6B) ("a", recC6A) [])

/-- C7 (counterexample): `GetAllHistories` does NOT always return
defensive copies.  The in-memory variant returns the internal map itself
(`return m.histories`), so the caller receives the store's own pointer and
writing through it changes what a subsequent `GetHistory` observes. -/
theorem getAllHistories_shared_counterexample :
    ("m1", 0) ∈ GetAllHistoriesShared ptrsC7 ∧
    getHistoryPtr ptrsC7 heapC7 "m1" = some recC7A ∧
    getHistoryPtr ptrsC7 (heapSet heapC7 0 recC7B) "m1" = some recC7B ∧
    recC7B ≠ recC7A := by
  refine ⟨by decide, rfl, rfl, by decide⟩

/-- C7 (amended): the BadgerDB variant of `GetAllHistories` returns
defensive copies — reading any id through the returned map agrees with the
store, and writing through any returned pointer leaves every stored record
unchanged as observed by `GetHistory` — while the in-memory variant
returns the internal map itself. -/
theorem getAllHistories_defensive_amended (entries : PtrStore) (h : Heap)
    (base : Nat) (hwf : ∀ e ∈ entries, e.2 < base) :
    (∀ id, getHistoryPtr (GetAllHistoriesCopied entries h base).1
        (GetAllHistoriesCopied entries h base).2 id =
      getHistoryPtr entries h id) ∧
    (∀ p, p ∈ (GetAllHistoriesCopied entries h base).1.map (·.2) →
      ∀ (r : MemoryWithHistory) (id : String),
        getHistoryPtr entries
          (heapSet (GetAllHistoriesCopied entries h base).2 p r) id =
        getHistoryPtr entries h id) ∧
    GetAllHistoriesShared entries = entries := by
  refine ⟨getHistoryPtr_copied entries h base hwf, ?_, rfl⟩
  intro p hp r id
  rcases List.mem_map.mp hp with ⟨e, he, rfl⟩
  have hbase : base ≤ e.2 := getAllHistoriesCopied_ptrs_ge entries h base e he
  apply getHistoryPtr_congr
  intro x hx
  have hx2 : x.2 < base := hwf x hx
  have hx3 : (GetAllHistoriesCopied entries h base).2 x.2 = h x.2 :=
    getAllHistoriesCopied_heap_below entries h base x.2 hx2
  unfold heapSet
  rw [if_neg (Nat.ne_of_lt (Nat.lt_of_lt_of_le hx2 hbase))]
  exact hx3

/-- Witness for the amended C7: the copy made at allocation frontier 1 of
the one-record pointer store reads back the original record even after a
write through the copy's pointer. -/
theorem getAllHistories_defensive_amended_witness :
    getHistoryPtr (GetAllHistoriesCopied ptrsC7 heapC7 1).1
      (GetAllHistoriesCopied ptrsC7 heapC7 1).2 "m1" =
      getHistoryPtr ptrsC7 heapC7 "m1" ∧
    getHistoryPtr ptrsC7
      (heapSet (GetAllHistoriesCopied ptrsC7 heapC7 1).2 1 recC7B) "m1" =
      getHistoryPtr ptrsC7 heapC7 "m1" := by
  have h := getAllHistories_defensive_amended ptrsC7 heapC7 1 (by decide)
  exact ⟨h.1 "m1", h.2.1 1 (by decide) recC7B "m1"⟩

/-- C5: exporting with `includeVersions=true` and importing the resulting
`ExportData` reproduces the original record for every selected id exactly,
with all fields and the full version list (import into any target store,
the original store included). -/
theorem export_import_roundtrip (s s2 : Store) (ids : List String)
    (id : String) (h : MemoryWithHistory) (now : Time)
    (hnd : (keys s).Nodup) (hwf : ∀ e ∈ s, e.2.ID = e.1)
    (hid : id ∈ ids) (hl : lookupMem s id = some h) :
    lookupMem (ImportMemories s2 (ExportMemories s ids true now)) id =
      some h := by
  have hms : (ExportMemories s ids true now).Memories =
      (s.filter (fun e => ids.isEmpty || ids.contains e.1)).map (·.2) := by
    simp [ExportMemories]
  show lookupMem ((ExportMemories s ids true now).Memories.foldl
    (fun acc m => setMem acc m.ID m) s2) id = some h
  rw [lookupMem_import, hms]
  rcases lookupMem_mem s id h hl with ⟨e0, he0, he01, he02⟩
  have hfind : (((s.filter (fun e => ids.isEmpty || ids.contains e.1)).map
      (·.2)).reverse.find? (fun m => m.ID == id)) = some h := by
    apply find?_of_unique
    · rw [List.mem_reverse]
      apply List.mem_map.mpr
      refine ⟨e0, List.mem_filter.mpr ⟨he0, ?_⟩, he02⟩
      rw [he01]
      simp [hid]
    · rw [← he02, hwf e0 he0, he01]
      simp
    · intro y hy hqy
      rw [List.mem_reverse] at hy
      rcases List.mem_map.mp hy with ⟨e, hef, rfl⟩
      have hes : e ∈ s := List.mem_of_mem_filter hef
      have hkey : e.1 = id := by
        have hq2 : (e.2.ID == id) = true := hqy
        rw [hwf e hes] at hq2
        simpa using hq2
      have hle := lookupMem_of_mem s e hnd hes
      rw [hkey, hl] at hle
      injection hle with hle2
      exact hle2.symm
  rw [hfind]
  rfl

/-- Witness for C5: the one-record store round-trips through an export of
`["m1"]` into the empty store. -/
theorem export_import_roundtrip_witness :
    lookupMem (ImportMemories []
      (ExportMemories [("m1", recSimple)] ["m1"] true 9)) "m1" =
      some recSimple :=
  export_import_roundtrip [("m1", recSimple)] [] ["m1"] "m1" recSimple 9
    (by decide) (by decide) (by decide) (by decide)

/-! ### Support for the context-statistics claim -/

theorem mem_foldl_tagfold (t : String) (ms : List SearchResult) :
    ∀ acc : List String,
      (t ∈ ms.foldl (fun acc m => addTagsDedup acc m.Tags) acc ↔
        t ∈ acc ∨ ∃ m ∈ ms, t ∈ m.Tags) := by
  induction ms with
  | nil => intro acc; simp
  | cons m rest ih =>
    intro acc
    rw [List.foldl_cons, ih, mem_addTagsDedup]
    constructor
    · rintro ((h | h) | h)
      · exact Or.inl h
      · exact Or.inr ⟨m, List.mem_cons_self m rest, h⟩
      · rcases h with ⟨x, hx, hxt⟩
        exact Or.inr ⟨x, List.mem_cons_of_mem m hx, hxt⟩
    · rintro (h | ⟨x, hx, hxt⟩)
      · exact Or.inl (Or.inl h)
      · rcases List.mem_cons.mp hx with rfl | h2
        · exact Or.inl (Or.inr hxt)
        · exact Or.inr ⟨x, h2, hxt⟩

theorem passesFilter_context_only (contextID : String) (mr : Int)
    (hctx : contextID ≠ "") (h : MemoryWithHistory) :
    passesFilter { ContextID := contextID, MaxResults := mr } h =
      (h.Context == contextID) := by
  have hc : (contextID == "") = false := by
    rw [beq_eq_false_iff_ne]
    exact hctx
  simp [passesFilter, matchesTagFilter, hc]

theorem filterMemoriesAll_context (entries : Store) (contextID : String)
    (mr : Int) (hctx : contextID ≠ "") :
    FilterMemoriesAll entries { ContextID := contextID, MaxResults := mr } =
      (contextMatching entries contextID).map
        (fun e => toSearchResult e.1 e.2 (lastVersion e.2)) := by
  rw [filterMemoriesAll_eq_filter]
  unfold contextMatching
  congr 1
  apply List.filter_congr
  intro x _
  rw [passesFilter_context_only contextID mr hctx]

theorem min?_getD_if (l : List Nat) (hl : ∀ x ∈ l, x ≠ 0) :
    (if (l.min?).getD 0 = 0 then none else some ((l.min?).getD 0)) =
      l.min? := by
  cases hm : l.min? with
  | none => simp
  | some v =>
    have hv : v ∈ l :=
      List.min?_mem (fun x y => by rw [Nat.min_def]; split <;> simp) hm
    have hv0 : v ≠ 0 := hl v hv
    simp [hv0]

theorem max?_getD_if (l : List Nat) (hl : ∀ x ∈ l, x ≠ 0) :
    (if (l.max?).getD 0 = 0 then none else some ((l.max?).getD 0)) =
      l.max? := by
  cases hm : l.max? with
  | none => simp
  | some v =>
    have hv : v ∈ l :=
      List.max?_mem (fun x y => by rw [Nat.max_def]; split <;> simp) hm
    have hv0 : v ≠ 0 := hl v hv
    simp [hv0]

/-- C9 (amended): for a non-empty context id, provided at most 10000
records match (the by-context query is capped at 10000, not unlimited) and
all stored timestamps are non-zero (the Go zero time doubles as the
"unset" sentinel in the fold), `GetContextStats` equals the fold over the
stored records whose context matches and whose history is non-empty
(zero-version records never surface in query results): count, set-union of
tags, min `created_at`, max `updated_at` (both absent exactly when nothing
matches), and summed latest-version content byte lengths. -/
theorem contextStats_fold_amended (entries : Store) (contextID : String)
    (hctx : contextID ≠ "")
    (hcap : (contextMatching entries contextID).length ≤ 10000)
    (htime : ∀ e ∈ entries, e.2.CreatedAt ≠ 0 ∧ e.2.UpdatedAt ≠ 0) :
    (GetContextStats entries contextID).MemoryCount =
      (contextMatching entries contextID).length ∧
    (∀ t, t ∈ (GetContextStats entries contextID).UniqueTags ↔
      ∃ e ∈ contextMatching entries contextID, t ∈ e.2.Tags) ∧
    (GetContextStats entries contextID).OldestMemory =
      ((contextMatching entries contextID).map
        (fun e => e.2.CreatedAt)).min? ∧
    (GetContextStats entries contextID).NewestMemory =
      ((contextMatching entries contextID).map
        (fun e => e.2.UpdatedAt)).max? ∧
    (GetContextStats entries contextID).TotalCharacters =
      ((contextMatching entries contextID).map
        (fun e => (lastVersion e.2).Content.utf8ByteSize)).sum := by
  have hall := filterMemoriesAll_context entries contextID 10000 hctx
  have hnottrunc : ¬(0 < (10000 : Int) ∧ (10000 : Int) <
      ((FilterMemoriesAll entries
        { ContextID := contextID, MaxResults := 10000 }).length : Int)) := by
    rintro ⟨_, h2⟩
    rw [hall, List.length_map] at h2
    omega
  have hmemories : SearchByContext entries contextID 10000 =
      (contextMatching entries contextID).map
        (fun e => toSearchResult e.1 e.2 (lastVersion e.2)) := by
    simp only [SearchByContext, FilterMemories]
    rw [if_neg hnottrunc, hall]
  have hcreated : ∀ x ∈ (contextMatching entries contextID).map
      (fun e => e.2.CreatedAt), x ≠ 0 := by
    intro x hx
    rcases List.mem_map.mp hx with ⟨e, he, rfl⟩
    exact (htime e (List.mem_of_mem_filter he)).1
  have hupdated : ∀ x ∈ (contextMatching entries contextID).map
      (fun e => e.2.UpdatedAt), x ≠ 0 := by
    intro x hx
    rcases List.mem_map.mp hx with ⟨e, he, rfl⟩
    exact (htime e (List.mem_of_mem_filter he)).2
  have hfmin : ((contextMatching entries contextID).map
      (fun e => toSearchResult e.1 e.2 (lastVersion e.2))).foldl
        (fun acc m => if acc = 0 ∨ m.CreatedAt < acc then m.CreatedAt
          else acc) 0 =
      ((contextMatching entries contextID).map
        (fun e => e.2.CreatedAt)).foldl
        (fun acc x => if acc = 0 ∨ x < acc then x else acc) 0 := by
    rw [List.foldl_map, List.foldl_map]
    rfl
  have hfmax : ((contextMatching entries contextID).map
      (fun e => toSearchResult e.1 e.2 (lastVersion e.2))).foldl
        (fun acc m => if acc = 0 ∨ m.UpdatedAt > acc then m.UpdatedAt
          else acc) 0 =
      ((contextMatching entries contextID).map
        (fun e => e.2.UpdatedAt)).foldl
        (fun acc x => if acc = 0 ∨ x > acc then x else acc) 0 := by
    rw [List.foldl_map, List.foldl_map]
    rfl
  refine ⟨?_, ?_, ?_, ?_, ?_⟩
  · simp only [GetContextStats]
    rw [hmemories, List.length_map]
  · intro t
    simp only [GetContextStats]
    rw [hmemories, mem_foldl_tagfold]
    simp only [List.not_mem_nil, false_or, List.mem_map,
      Prod.exists]
    constructor
    · rintro ⟨m, ⟨a, b, hab, rfl⟩, ht⟩
      exact ⟨a, b, hab, ht⟩
    · rintro ⟨a, b, hab, ht⟩
      exact ⟨toSearchResult a b (lastVersion b), ⟨a, b, hab, rfl⟩, ht⟩
  · simp only [GetContextStats]
    rw [hmemories, hfmin, foldl_minStep _ hcreated,
      min?_getD_if _ hcreated]
  · simp only [GetContextStats]
    rw [hmemories, hfmax, foldl_maxStep, max?_getD_if _ hupdated]
  · simp only [GetContextStats]
    rw [hmemories, List.foldl_map, List.sum_eq_foldl, List.foldl_map]
    rfl

theorem filterMap_eq_map_of_some {α β : Type} (g : α → Option β)
    (f : α → β) :
    ∀ l : List α, (∀ x ∈ l, g x = some (f x)) → l.filterMap g = l.map f := by
  intro l
  induction l with
  | nil => intro _; rfl
  | cons a t ih =>
    intro h
    rw [List.filterMap_cons, h a (List.mem_cons_self a t), List.map_cons,
      ih (fun x hx => h x (List.mem_cons_of_mem a hx))]

theorem idOf_injective : Function.Injective idOf := by
  intro i j hij
  have h1 : (idOf i).data.length = i := by
    simp [idOf]
  have h2 : (idOf j).data.length = j := by
    simp [idOf]
  rw [← h1, ← h2, hij]

theorem bigC9_resultOf (i : Nat) :
    resultOf { ContextID := "c", MaxResults := 10000 } (idOf i, bigRecC9 i) =
      some (toSearchResult (idOf i) (bigRecC9 i) v1) := by
  simp [resultOf, passesFilter, matchesTagFilter, bigRecC9, toSearchResult]

theorem bigC9_all_results :
    FilterMemoriesAll bigC9 { ContextID := "c", MaxResults := 10000 } =
      (List.range 10001).map
        (fun i => toSearchResult (idOf i) (bigRecC9 i) v1) := by
  unfold FilterMemoriesAll bigC9
  rw [List.filterMap_map]
  exact filterMap_eq_map_of_some _ _ (List.range 10001)
    (fun i _ => bigC9_resultOf i)

theorem bigC9_all_length :
    (FilterMemoriesAll bigC9
      { ContextID := "c", MaxResults := 10000 }).length = 10001 := by
  rw [bigC9_all_results, List.length_map, List.length_range]

theorem bigC9_match_length :
    (bigC9.filter (fun e => e.2.Context == "c")).length = 10001 := by
  unfold bigC9
  rw [List.filter_map]
  rw [List.filter_eq_self.mpr]
  · rw [List.length_map, List.length_range]
  · intro i _
    simp [bigRecC9]

/-- C9 (counterexample): `GetContextStats(contextID)` does NOT always
equal the fold over all stored records whose context equals `contextID`:
(i) an empty context id makes the by-context query match every record
rather than records with empty context; (ii) a matching record with zero
versions is not counted; (iii) a matching record whose `created_at` is
the zero time is reported as "absent oldest" although the minimum exists;
(iv) the by-context query is capped at 10000 results, so with 10001
matching records the stats count only 10000. -/
theorem contextStats_counterexample :
    ((GetContextStats [("m", ctxRec)] "").MemoryCount = 1 ∧
      (([("m", ctxRec)] : Store).filter
        (fun e => e.2.Context == "")).length = 0) ∧
    ((GetContextStats [("z", zeroVerRec)] "c").MemoryCount = 0 ∧
      (([("z", zeroVerRec)] : Store).filter
        (fun e => e.2.Context == "c")).length = 1) ∧
    ((GetContextStats [("m", zeroTimeRec)] "c").OldestMemory = none ∧
      ((([("m", zeroTimeRec)] : Store).filter
        (fun e => e.2.Context == "c")).map
          (fun e => e.2.CreatedAt)).min? = some 0) ∧
    ((keys bigC9).Nodup ∧
      (GetContextStats bigC9 "c").MemoryCount = 10000 ∧
      (bigC9.filter (fun e => e.2.Context == "c")).length = 10001) := by
  refine ⟨⟨?_, by decide⟩, ⟨?_, by decide⟩,
    ⟨?_, by decide⟩, ?_, ?_, bigC9_match_length⟩
  · decide
  · decide
  · decide
  · simp only [keys]
    unfold bigC9
    rw [List.map_map]
    refine List.Nodup.map ?_ (List.nodup_range 10001)
    intro i j hij
    exact idOf_injective hij
  · have hcond : 0 < (10000 : Int) ∧ (10000 : Int) <
        ((FilterMemoriesAll bigC9
          { ContextID := "c", MaxResults := 10000 }).length : Int) := by
      constructor
      · omega
      · rw [bigC9_all_length]
        omega
    simp only [GetContextStats, SearchByContext, FilterMemories]
    rw [if_pos hcond, List.length_take, bigC9_all_length]
    omega

/-- Witness for the amended C9 on a one-record store in context "ctxA". -/
theorem contextStats_fold_amended_witness :
    (GetContextStats [("m1", recSimple)] "ctxA").MemoryCount =
      (contextMatching [("m1", recSimple)] "ctxA").length ∧
    (GetContextStats [("m1", recSimple)] "ctxA").OldestMemory =
      ((contextMatching [("m1", recSimple)] "ctxA").map
        (fun e => e.2.CreatedAt)).min? := by
  have h := contextStats_fold_amended [("m1", recSimple)] "ctxA"
    (by decide) (by decide) (by decide)
  exact ⟨h.1, h.2.2.1⟩

end BrainMCP
